import Mathlib

/-!
# tldr: configuration assembly, remote sync and path resolution

A shallow embedding of `main.go`.  Go strings are modelled as lists of
characters (`Str`); the Go standard-library routines the program calls
(`strings.Replace`, `strings.Split`, `os.ExpandEnv`, `filepath.Join`) are
modelled by executable functions that follow the library's algorithms on
Unix.  The filesystem, the network and the process environment are explicit
arguments; paths that name one file through a link are related by
`Sys.sameFile`.
-/

namespace Tldr

/-- A Go string, as the list of its characters. -/
abbrev Str := List Char

/-! ## `strings` -/

/-- Scanning loop of `strings.Replace(s, old, new, -1)` for a non-empty `old`:
the first argument counts the characters of a matched `old` that are still to
be skipped. -/
def replaceGo (old new : Str) : Nat → Str → Str
  | _, [] => []
  | k + 1, _ :: t => replaceGo old new k t
  | 0, c :: t =>
    if old.isPrefixOf (c :: t) then new ++ replaceGo old new (old.length - 1) t
    else c :: replaceGo old new 0 t

/-- Go `strings.Replace(s, old, new, -1)`: every non-overlapping occurrence of
`old`, leftmost first, is replaced by `new`.  For an empty `old` the Go routine
inserts `new` before every character and at the end. -/
def Replace (s old new : Str) : Str :=
  if old = [] then new ++ s.flatMap (fun c => c :: new)
  else replaceGo old new 0 s

/-- Scanning loop of `strings.Split(s, sep)` for a non-empty `sep`; the head of
the result is the piece being read. -/
def splitGo (sep : Str) : Nat → Str → List Str
  | _, [] => [[]]
  | k + 1, _ :: t => splitGo sep k t
  | 0, c :: t =>
    if sep.isPrefixOf (c :: t) then [] :: splitGo sep (sep.length - 1) t
    else
      match splitGo sep 0 t with
      | [] => [[c]]
      | p :: ps => (c :: p) :: ps

/-- Go `strings.Split(s, sep)`: the substrings of `s` between the occurrences
of `sep`; an empty `sep` splits after every character. -/
def Split (s sep : Str) : List Str :=
  if sep = [] then s.map (fun c => [c])
  else splitGo sep 0 s

/-! ## `os.ExpandEnv` -/

/-- The process environment: `os.LookupEnv`. -/
abbrev Env := Str → Option Str

/-- Go `os.Getenv`: the value of the variable, empty when it is not set. -/
def Getenv (env : Env) (name : Str) : Str := (env name).getD []

/-- Go `os.isShellSpecialVar`. -/
def isShellSpecialVar (c : Char) : Bool :=
  c = '*' || c = '#' || c = '$' || c = '@' || c = '!' || c = '?' || c = '-' ||
  ('0' ≤ c && c ≤ '9')

/-- Go `os.isAlphaNum`. -/
def isAlphaNum (c : Char) : Bool :=
  c = '_' || ('0' ≤ c && c ≤ '9') || ('a' ≤ c && c ≤ 'z') || ('A' ≤ c && c ≤ 'Z')

/-- Go `os.getShellName`: the name that begins `s` and the number of
characters consumed to extract it. -/
def getShellName (s : Str) : Str × Nat :=
  match s with
  | [] => ([], 0)
  | c :: r =>
    if c = '\x7b' then
      if isShellSpecialVar (r.headD ' ') && (r.drop 1).head? = some '\x7d' then
        ([r.headD ' '], 3)
      else
        let name := r.takeWhile (fun x => x ≠ '\x7d')
        if name.length = r.length then ([], 1)
        else if name = [] then ([], 2)
        else (name, name.length + 2)
    else if isShellSpecialVar c then ([c], 1)
    else
      let name := (c :: r).takeWhile isAlphaNum
      (name, name.length)

/-- Loop of Go `os.Expand` with `os.Getenv` as the mapping; the first argument
counts the characters of a reference that are still to be skipped
(`j += w`). -/
def expandGo (env : Env) : Nat → Str → Str
  | _, [] => []
  | k + 1, _ :: t => expandGo env k t
  | 0, c :: t =>
    if c = '$' ∧ t ≠ [] then
      let nw := getShellName t
      (if nw.1 = [] ∧ 0 < nw.2 then []
       else if nw.1 = [] then [c]
       else Getenv env nw.1) ++ expandGo env nw.2 t
    else c :: expandGo env 0 t

/-- Go `os.ExpandEnv`. -/
def ExpandEnv (env : Env) (s : Str) : Str := expandGo env 0 s

/-! ## `path/filepath` (Unix) -/

/-- The output buffer of `filepath.Clean` and the index `dotdot` below which a
`..` element may not backtrack. -/
structure CleanSt where
  out : Str
  dotdot : Nat
deriving DecidableEq, Repr

/-- The backtracking loop of `filepath.Clean` for a `..` element: starting
from index `w`, move left while `w > dotdot` and `out[w]` is not a slash. -/
def backtrack (out : Str) (dotdot : Nat) : Nat → Nat
  | 0 => 0
  | w + 1 =>
    if dotdot < w + 1 ∧ out.getD (w + 1) '/' ≠ '/' then backtrack out dotdot w
    else w + 1

/-- One round of the loop of `filepath.Clean`, on the path element `e` (the
text between two slashes): empty and `.` elements are dropped, `..` removes
the last element written (or is kept when nothing can be removed and the path
is not rooted), any other element is appended after a slash if needed. -/
def cleanStep (rooted : Bool) (st : CleanSt) (e : Str) : CleanSt :=
  if e = [] ∨ e = ['.'] then st
  else if e = ['.', '.'] then
    if st.dotdot < st.out.length then
      { st with out := st.out.take (backtrack st.out st.dotdot (st.out.length - 1)) }
    else if rooted then st
    else
      let out := (if 0 < st.out.length then st.out ++ ['/'] else st.out) ++ ['.', '.']
      { out := out, dotdot := out.length }
  else
    { st with
      out := (if (rooted && st.out.length != 1) || (!rooted && st.out.length != 0)
              then st.out ++ ['/'] else st.out) ++ e }

/-- Go `filepath.Clean` on Unix. -/
def Clean (path : Str) : Str :=
  if path = [] then ['.']
  else
    let rooted := path.head? = some '/'
    let init : CleanSt := if rooted then ⟨['/'], 1⟩ else ⟨[], 0⟩
    let st := (Split path ['/']).foldl (cleanStep rooted) init
    if st.out = [] then ['.'] else st.out

/-- Go `filepath.Join(a, b)` on Unix: the elements from the first non-empty
one on are joined by a slash and the result is cleaned. -/
def Join (a b : Str) : Str :=
  if a ≠ [] then Clean (a ++ '/' :: b)
  else if b ≠ [] then Clean b
  else []

/-! ## The filesystem and the network -/

/-- How reading a path behaves once it exists. -/
inductive Access where
  /-- `os.Open` succeeds and the whole content can be read. -/
  | ok
  /-- `os.Open` fails. -/
  | noOpen
  /-- `os.Open` succeeds; reading yields the given number of characters and
  then an error (a directory yields none). -/
  | readFails (after : Nat)
deriving DecidableEq, Repr

/-- What a path names. -/
inductive Node where
  /-- `os.Stat` fails. -/
  | absent
  /-- `os.Stat` succeeds. -/
  | present (content : Str) (access : Access)
deriving DecidableEq, Repr

/-- A filesystem state. -/
abbrev FS := Str → Node

/-- The content of the file at a path, when there is one. -/
def Node.content? : Node → Option Str
  | .absent => none
  | .present c _ => some c

/-- The file after `os.Create` and a write of `written`: a new file is
readable, an existing one is truncated and keeps its access mode. -/
def Node.rewrite (written : Str) : Node → Node
  | .absent => .present written .ok
  | .present _ a => .present written a

/-- The filesystem after the file at `p` has been rewritten: `os.Create` and
`io.Copy` follow links, so the change shows at `p` and at every path that
names the same file (`sameFile p q`). -/
def FS.write (fs : FS) (sameFile : Str → Str → Bool) (p written : Str) : FS :=
  fun q => if q = p ∨ sameFile p q = true then (fs p).rewrite written else fs q

/-- The outcome of `http.Get` on a URL. -/
inductive Resp where
  /-- The request fails. -/
  | failed
  /-- A response whose body streams `content` and then ends (`complete`) or
  breaks with a read error. -/
  | body (content : Str) (complete : Bool)
deriving DecidableEq, Repr

/-- A remote listing entry: `name` and `download_url`. -/
structure Entry where
  Name : Str
  DownloadURL : Str
deriving DecidableEq, Repr

/-- The outcome of fetching and decoding the listing. -/
inductive Listing where
  /-- `http.Get` on the listing URL fails. -/
  | unreachable
  /-- The response body does not decode as an array of entries. -/
  | undecodable
  /-- The decoded entries. -/
  | entries (files : List Entry)
deriving DecidableEq, Repr

/-- The parts of the world `doPull` depends on besides the files. -/
structure Sys where
  /-- Whether `os.MkdirAll` on the path succeeds. -/
  mkdirAll : Str → Bool
  /-- Whether `os.Create` on the path succeeds. -/
  create : Str → Bool
  /-- Whether the two paths name one file: a symbolic or hard link, or two
  spellings on a case-folding volume. -/
  sameFile : Str → Str → Bool
  /-- The number of characters after which writing to the path fails, if it
  does. -/
  writeLimit : Str → Option Nat
  /-- The remote listing. -/
  listing : Listing
  /-- The responses of the download URLs. -/
  get : Str → Resp

/-! ## Remote sync -/

/-- What `io.Copy(file, resp.Body)` leaves in the file at `p`, and whether it
returns without error. -/
def copyToFile (sys : Sys) (p content : Str) (complete : Bool) : Str × Bool :=
  match sys.writeLimit p with
  | some k => if k < content.length then (content.take k, false) else (content, complete)
  | none => (content, complete)

/-- Model of `getFile(name, URL)`: the filesystem it leaves and whether it
returns (`true`) or ends the process with `os.Exit(1)` (`false`). -/
def getFile (sys : Sys) (pullDir : Str) (fs : FS) (name URL : Str) : FS × Bool :=
  match sys.get URL with
  | .failed => (fs, false)
  | .body content complete =>
    let p := Join pullDir name
    if sys.create p then
      let r := copyToFile sys p content complete
      (fs.write sys.sameFile p r.1, r.2)
    else (fs, false)

/-- The loop of `doPull` over the listing; it stops at the first `getFile`
that ends the process. -/
def pullAll (sys : Sys) (pullDir : Str) : FS → List Entry → FS × Bool
  | fs, [] => (fs, true)
  | fs, file :: rest =>
    match getFile sys pullDir fs file.Name file.DownloadURL with
    | (fs1, true) => pullAll sys pullDir fs1 rest
    | (fs1, false) => (fs1, false)

/-- Model of `doPull()`: the files it leaves and whether it returns (`true`)
or ends the process with `os.Exit(1)` (`false`).  `os.MkdirAll` creates
directories only and leaves every file as it is. -/
def doPull (sys : Sys) (pullDir : Str) (fs : FS) : FS × Bool :=
  if sys.mkdirAll pullDir then
    match sys.listing with
    | .unreachable => (fs, false)
    | .undecodable => (fs, false)
    | .entries files => pullAll sys pullDir fs files
  else (fs, false)

/-! ## Path resolver -/

/-- A line written to the error stream by `tldr`. -/
inductive Msg where
  /-- "failed to open". -/
  | openFailed (fullpath : Str)
  /-- "failed writing tldr ... to stdout". -/
  | copyFailed (fullpath name : Str)
  /-- "didn't find any tldrs. have you tried 'tldr -pull'?". -/
  | hint
deriving DecidableEq, Repr

/-- The state of `tldr`: what has been written to the two streams and the
local variable `found`. -/
structure Out where
  stdout : Str
  stderr : List Msg
  found : Bool
deriving DecidableEq, Repr

/-- The body of the inner loop of `tldr` for one directory of the search
path. -/
def tldrVisit (fs : FS) (name : Str) (st : Out) (path : Str) : Out :=
  let fullpath := Join path name
  match fs fullpath with
  | .absent => st
  | .present _ .noOpen => { st with stderr := st.stderr ++ [.openFailed fullpath] }
  | .present c .ok => { st with stdout := st.stdout ++ c, found := true }
  | .present c (.readFails k) =>
    { stdout := st.stdout ++ c.take k,
      stderr := st.stderr ++ [.copyFailed fullpath name],
      found := true }

/-- The two nested loops of `tldr`. -/
def tldrScan (fs : FS) (paths : Str) (names : List Str) (st : Out) : Out :=
  names.foldl (fun st name => (Split paths [':']).foldl (tldrVisit fs name) st) st

/-- Model of `tldr(names)` with the global `paths`. -/
def tldr (fs : FS) (paths : Str) (names : List Str) : Out :=
  let st := tldrScan fs paths names ⟨[], [], false⟩
  if st.found then st else { st with stderr := st.stderr ++ [.hint] }

/-! ## `main` -/

/-- The parsed command line: the three flags and the remaining arguments. -/
structure Flags where
  pull : Bool
  pullDir : Str
  paths : Str
  args : List Str

/-- The placeholder of the cache directory in the `-paths` flag. -/
def placeholder : Str := "(pull-dir)".toList

/-- The default of `-pull-dir`. -/
def defaultPullDir : Str := "$HOME/.local/share/tldr".toList

/-- The default of `-paths`. -/
def defaultPaths : Str := "$HOME/.tldr:(pull-dir)".toList

/-- The value of the global `pullDir` when `doPull` runs (line 37). -/
def mainPullDir (env : Env) (pullDirFlag : Str) : Str :=
  ExpandEnv env pullDirFlag

/-- The value of the global `paths` when `doPull` runs (lines 34 and 38). -/
def mainPathsOnce (env : Env) (pullDirFlag pathsFlag : Str) : Str :=
  ExpandEnv env (Replace (Replace pathsFlag placeholder pullDirFlag) ['~'] "$HOME".toList)

/-- The value of the global `paths` when `tldr` runs (line 44). -/
def mainPaths (env : Env) (pullDirFlag pathsFlag : Str) : Str :=
  ExpandEnv env (mainPathsOnce env pullDirFlag pathsFlag)

/-- What a run of the program leaves behind. -/
structure Run where
  fs : FS
  /-- The exit status. -/
  exit : Nat
  stdout : Str
  stderr : List Msg

/-- Model of `main()`.  The error lines of `doPull` are not recorded. -/
def main (env : Env) (sys : Sys) (fs : FS) (flags : Flags) : Run :=
  let pullDir := mainPullDir env flags.pullDir
  let paths := mainPaths env flags.pullDir flags.paths
  let pulled := if flags.pull then doPull sys pullDir fs else (fs, true)
  if pulled.2 then
    let o := tldr pulled.1 paths flags.args
    { fs := pulled.1, exit := 0, stdout := o.stdout, stderr := o.stderr }
  else { fs := pulled.1, exit := 1, stdout := [], stderr := [] }

/-! ## Definitions used in the statements -/

/-- The text `os.Expand` writes for a `$` followed by `t`. -/
def refOutput (env : Env) (t : Str) : Str :=
  if (getShellName t).1 = [] ∧ 0 < (getShellName t).2 then []
  else if (getShellName t).1 = [] then ['$']
  else Getenv env (getShellName t).1

/-- The paths `tldr` tests for a name: one per entry of the search path. -/
def candidates (paths name : Str) : List Str :=
  (Split paths [':']).map (fun path => Join path name)

/-- What `io.Copy(os.Stdout, file)` writes for the file at a candidate path:
nothing when the path is missing or cannot be opened, the whole content when
the read succeeds, the characters read before the error when it fails. -/
def Node.emitted : Node → Str
  | .absent => []
  | .present _ .noOpen => []
  | .present c .ok => c
  | .present c (.readFails k) => c.take k

/-- The content of a file that exists and can be opened and read in full;
nothing for any other path. -/
def Node.fullContent : Node → Str
  | .present c .ok => c
  | _ => []

/-- Whether `os.Stat` and `os.Open` both succeed on the path. -/
def Node.opened : Node → Bool
  | .present _ .ok => true
  | .present _ (.readFails _) => true
  | _ => false

/-- Whether the file was opened and streamed to standard output without
error. -/
def Node.streamed : Node → Bool
  | .present _ .ok => true
  | _ => false

/-- Go `strings.Join(elems, sep)`. -/
def stringsJoin (sep : Str) : List Str → Str
  | [] => []
  | [s] => s
  | s :: rest => s ++ sep ++ stringsJoin sep rest

/-- A plain file name: not empty, without a slash, and neither `.` nor `..`. -/
def plainName (name : Str) : Prop :=
  name ≠ [] ∧ '/' ∉ name ∧ name ≠ ['.'] ∧ name ≠ ['.', '.']

/-- The filesystem in which no path exists. -/
def emptyFS : FS := fun _ => .absent

/-- The environment that defines `HOME` as `/h` and nothing else. -/
def homeEnv : Env := fun name => if name = "HOME".toList then some "/h".toList else none

/-- A filesystem whose only file, `d/n`, holds `ab` and fails to read after
the first character. -/
def faultyFS : FS := fun p =>
  if p = "d/n".toList then .present "ab".toList (.readFails 1) else .absent

/-- A filesystem in which `d/n` is a directory: it can be opened and every
read of it fails. -/
def dirFS : FS := fun p =>
  if p = "d/n".toList then .present [] (.readFails 0) else .absent

/-- A world in which every operation succeeds and the listing is the single
entry named `../x`, served at `u` with the body `data`. -/
def escapeSys : Sys where
  mkdirAll := fun _ => true
  create := fun _ => true
  sameFile := fun _ _ => false
  writeLimit := fun _ => none
  listing := .entries [⟨"../x".toList, "u".toList⟩]
  get := fun _ => .body "data".toList true

/-- A world in which every operation succeeds and the listing has the two
entries `a` and `b`, served at `ua` and `ub`. -/
def twoDocsSys : Sys where
  mkdirAll := fun _ => true
  create := fun _ => true
  sameFile := fun _ _ => false
  writeLimit := fun _ => none
  listing := .entries [⟨"a".toList, "ua".toList⟩, ⟨"b".toList, "ub".toList⟩]
  get := fun url => if url = "ua".toList then .body "AAA".toList true
                    else .body "B".toList true

/-- The world of `twoDocsSys` in which `/c/a` is a link to `/c/b`. -/
def linkedSys : Sys where
  mkdirAll := fun _ => true
  create := fun _ => true
  sameFile := fun p q =>
    (p = "/c/a".toList && q = "/c/b".toList) || (p = "/c/b".toList && q = "/c/a".toList)
  writeLimit := fun _ => none
  listing := .entries [⟨"a".toList, "ua".toList⟩, ⟨"b".toList, "ub".toList⟩]
  get := fun url => if url = "ua".toList then .body "AAA".toList true
                    else .body "B".toList true

/-- A world whose listing does not decode. -/
def badListingSys : Sys where
  mkdirAll := fun _ => true
  create := fun _ => true
  sameFile := fun _ _ => false
  writeLimit := fun _ => none
  listing := .undecodable
  get := fun _ => .body "data".toList true

/-- A filesystem with one file, `/c/a`, holding `old`. -/
def oldFS : FS := fun p =>
  if p = "/c/a".toList then .present "old".toList .ok else .absent

/-- No proper non-empty suffix of `w` is a prefix of `w`: two occurrences of
`w` in a text cannot overlap. -/
def unbordered (w : Str) : Prop :=
  ∀ k, k < w.length → 0 < k → ¬ (w.drop k).isPrefixOf w = true

/-- The environment that defines no variable. -/
def emptyEnv : Env := fun _ => none

/-- Whether the reference that starts the non-empty text `t` (the text after
a `$`) is read the same whatever follows `t`, given the first character `next`
of what follows (`none` at the end of the string): a braced name is closed
inside `t`, a special variable is one character, and a run of letters, digits
and underscores either stops inside `t` or is not continued by `next`. -/
def refComplete (t : Str) (next : Option Char) : Bool :=
  if t.headD ' ' = '\x7b' then (t.drop 1).contains '\x7d'
  else if isShellSpecialVar (t.headD ' ') then true
  else !(t.all isAlphaNum) || (match next with
    | none => true
    | some e => !isAlphaNum e)

/-- Scan of a template along the loop of `os.Expand`: whether each of its
references is complete inside the template, given the first character `next`
of the text that follows the template. -/
def closedGo (next : Option Char) : Nat → Str → Bool
  | _, [] => true
  | k + 1, _ :: t => closedGo next k t
  | 0, c :: t =>
    if c = '$' then
      if t = [] then
        (match next with
         | none => true
         | some d => !(d = '\x7b' || isShellSpecialVar d || isAlphaNum d))
      else refComplete t next && closedGo next (getShellName t).2 t
    else closedGo next 0 t

/-- The template `P` expands the same whatever text starting with `next`
follows it. -/
def closed (P : Str) (next : Option Char) : Bool := closedGo next 0 P

/-! # Theorems -/

/-! ## Lemmas on `os.ExpandEnv` -/

theorem expandGo_skip (env : Env) (k : Nat) (t : Str) :
    expandGo env k t = expandGo env 0 (t.drop k) := by
  induction k generalizing t with
  | zero => simp
  | succ k ih =>
    cases t with
    | nil => simp [expandGo]
    | cons c t => simp [expandGo, ih t]

theorem ExpandEnv_nil (env : Env) : ExpandEnv env [] = [] := by
  simp [ExpandEnv, expandGo]

theorem ExpandEnv_cons_of_ne (env : Env) {c : Char} (t : Str) (h : c ≠ '$') :
    ExpandEnv env (c :: t) = c :: ExpandEnv env t := by
  simp [ExpandEnv, expandGo, h]

theorem ExpandEnv_dollar_end (env : Env) : ExpandEnv env ['$'] = ['$'] := by
  simp [ExpandEnv, expandGo]

theorem ExpandEnv_dollar (env : Env) {t : Str} (h : t ≠ []) :
    ExpandEnv env ('$' :: t) =
      refOutput env t ++ ExpandEnv env (t.drop (getShellName t).2) := by
  simp only [ExpandEnv, expandGo, refOutput]
  rw [expandGo_skip env (getShellName t).2 t]
  simp [h]

theorem ExpandEnv_literal_append (env : Env) (s t : Str) (h : '$' ∉ s) :
    ExpandEnv env (s ++ t) = s ++ ExpandEnv env t := by
  induction s with
  | nil => simp
  | cons c s ih =>
    simp only [List.mem_cons, not_or] at h
    rw [List.cons_append, ExpandEnv_cons_of_ne env _ (Ne.symm h.1), ih h.2, List.cons_append]

theorem ExpandEnv_literal (env : Env) (s : Str) (h : '$' ∉ s) : ExpandEnv env s = s := by
  have := ExpandEnv_literal_append env s [] h
  simpa [ExpandEnv_nil] using this

/-- A `$` followed by a character that starts no reference is left as it
is. -/
theorem getShellName_eq_nil_zero {c : Char} {r : Str}
    (h : (getShellName (c :: r)).1 = [] ∧ ¬ 0 < (getShellName (c :: r)).2) :
    c ≠ '$' ∧ ∀ r2, getShellName (c :: r2) = ([], 0) := by
  obtain ⟨h1, h2⟩ := h
  unfold getShellName at h1 h2
  simp only at h1 h2
  by_cases hb : c = '\x7b'
  · exfalso
    simp only [hb, if_true] at h2
    split_ifs at h2 <;> simp at h2
  · by_cases hs : isShellSpecialVar c = true
    · exfalso
      simp [hb, hs] at h2
    · simp only [hb, hs, if_false] at h1 h2
      have ha : isAlphaNum c = false := by
        by_contra hc
        simp only [Bool.not_eq_false] at hc
        simp [List.takeWhile_cons, hc] at h1
      refine ⟨?_, ?_⟩
      · rintro rfl
        exact hs (by decide)
      · intro r2
        unfold getShellName
        simp [hb, hs, List.takeWhile_cons, ha]

theorem ExpandEnv_idem_aux (env : Env) (henv : ∀ name, '$' ∉ Getenv env name) :
    ∀ (n : Nat) (s : Str), s.length ≤ n → ExpandEnv env (ExpandEnv env s) = ExpandEnv env s := by
  intro n
  induction n with
  | zero =>
    intro s hs
    have : s = [] := List.length_eq_zero.mp (Nat.le_zero.mp hs)
    subst this
    simp [ExpandEnv_nil]
  | succ n ih =>
    intro s hs
    cases s with
    | nil => simp [ExpandEnv_nil]
    | cons c t =>
      have ht : t.length ≤ n := by simpa using hs
      by_cases hc : c = '$'
      · subst hc
        cases t with
        | nil => simp [ExpandEnv_dollar_end]
        | cons d r =>
          have hne : (d :: r) ≠ [] := by simp
          have hdrop : ((d :: r).drop (getShellName (d :: r)).2).length ≤ n := by
            rw [List.length_drop]; omega
          rw [ExpandEnv_dollar env hne]
          unfold refOutput
          by_cases h1 : (getShellName (d :: r)).1 = [] ∧ 0 < (getShellName (d :: r)).2
          · rw [if_pos h1]
            simpa using ih _ hdrop
          · rw [if_neg h1]
            by_cases h2 : (getShellName (d :: r)).1 = []
            · rw [if_pos h2]
              have h0 : ¬ 0 < (getShellName (d :: r)).2 := fun h => h1 ⟨h2, h⟩
              obtain ⟨hd, hall⟩ := getShellName_eq_nil_zero ⟨h2, h0⟩
              have hw : (getShellName (d :: r)).2 = 0 := by omega
              rw [hw, List.drop_zero, ExpandEnv_cons_of_ne env r hd]
              rw [List.singleton_append, ExpandEnv_dollar env (by simp)]
              unfold refOutput
              rw [hall]
              simp only [List.drop_zero, lt_irrefl, and_false, if_false, if_true,
                List.singleton_append]
              rw [ExpandEnv_cons_of_ne env _ hd]
              have := ih r (by simp at ht; omega)
              rw [this]
            · rw [if_neg h2]
              rw [ExpandEnv_literal_append env _ _ (henv _), ih _ hdrop]
      · rw [ExpandEnv_cons_of_ne env t hc, ExpandEnv_cons_of_ne env _ hc, ih t ht]

theorem ExpandEnv_idem (env : Env) (henv : ∀ name, '$' ∉ Getenv env name) (s : Str) :
    ExpandEnv env (ExpandEnv env s) = ExpandEnv env s :=
  ExpandEnv_idem_aux env henv s.length s le_rfl

/-! ## Lemmas on `strings.Split` with a one-character separator -/

theorem splitGo_ne_nil (sep : Str) (k : Nat) (s : Str) : splitGo sep k s ≠ [] := by
  induction s generalizing k with
  | nil => simp [splitGo]
  | cons c t ih =>
    cases k with
    | succ k => simpa [splitGo] using ih k
    | zero =>
      simp only [splitGo]
      split_ifs
      · simp
      · split <;> simp

theorem Split_sep_cons (c : Char) (t : Str) : Split (c :: t) [c] = [] :: Split t [c] := by
  simp [Split, splitGo, List.isPrefixOf]

theorem Split_cons_of_ne {c x : Char} (t : Str) (h : x ≠ c) :
    Split (x :: t) [c] =
      ((Split t [c]).headD [] |>.cons x) :: (Split t [c]).tail := by
  have hne := splitGo_ne_nil [c] 0 t
  simp only [Split, splitGo, List.isPrefixOf, List.cons_ne_nil, if_false]
  have hx : (c == x) = false := by simpa using Ne.symm h
  simp only [hx, Bool.false_and, Bool.false_eq_true, if_false]
  cases hsp : splitGo [c] 0 t with
  | nil => exact absurd hsp hne
  | cons p ps => simp

theorem Split_nil (c : Char) : Split [] [c] = [[]] := by
  simp [Split, splitGo]

theorem Split_literal (c : Char) (a : Str) (h : c ∉ a) : Split a [c] = [a] := by
  induction a with
  | nil => exact Split_nil c
  | cons x a ih =>
    simp only [List.mem_cons, not_or] at h
    rw [Split_cons_of_ne a (Ne.symm h.1), ih h.2]
    simp

theorem Split_append_sep (c : Char) (a b : Str) (h : c ∉ a) :
    Split (a ++ c :: b) [c] = a :: Split b [c] := by
  induction a with
  | nil => simpa using Split_sep_cons c b
  | cons x a ih =>
    simp only [List.mem_cons, not_or] at h
    rw [List.cons_append, Split_cons_of_ne _ (Ne.symm h.1), ih h.2]
    simp

theorem Split_ne_nil (s : Str) (c : Char) : Split s [c] ≠ [] := by
  simpa [Split] using splitGo_ne_nil [c] 0 s

theorem Split_append_last (c : Char) (a b : Str) (h : c ∉ b) :
    Split (a ++ c :: b) [c] = Split a [c] ++ [b] := by
  induction a with
  | nil => rw [List.nil_append, Split_sep_cons, Split_literal c b h, Split_nil]; rfl
  | cons x a ih =>
    by_cases hx : x = c
    · subst hx
      rw [List.cons_append, Split_sep_cons, Split_sep_cons, ih, List.cons_append]
    · rw [List.cons_append, Split_cons_of_ne _ hx, Split_cons_of_ne _ hx, ih]
      cases hsp : Split a [c] with
      | nil => exact absurd hsp (Split_ne_nil a c)
      | cons p ps => simp

/-! ## Path resolver -/

theorem tldrVisit_stdout (fs : FS) (name : Str) (st : Out) (path : Str) :
    (tldrVisit fs name st path).stdout = st.stdout ++ (fs (Join path name)).emitted := by
  simp only [tldrVisit]
  split <;> simp_all [Node.emitted]

theorem tldrVisit_found (fs : FS) (name : Str) (st : Out) (path : Str) :
    (tldrVisit fs name st path).found = (st.found || (fs (Join path name)).opened) := by
  simp only [tldrVisit]
  split <;> simp_all [Node.opened]

theorem tldrVisit_hint (fs : FS) (name : Str) (st : Out) (path : Str) :
    (tldrVisit fs name st path).stderr.count Msg.hint = st.stderr.count Msg.hint := by
  simp only [tldrVisit]
  split <;> simp [List.count_append, List.count_cons]

theorem visits_stdout (fs : FS) (name : Str) (dirs : List Str) (st : Out) :
    (dirs.foldl (tldrVisit fs name) st).stdout =
      st.stdout ++ dirs.flatMap (fun path => (fs (Join path name)).emitted) := by
  induction dirs generalizing st with
  | nil => simp
  | cons d dirs ih => simp [List.foldl_cons, ih, tldrVisit_stdout, List.append_assoc]

theorem visits_found (fs : FS) (name : Str) (dirs : List Str) (st : Out) :
    (dirs.foldl (tldrVisit fs name) st).found =
      (st.found || dirs.any (fun path => (fs (Join path name)).opened)) := by
  induction dirs generalizing st with
  | nil => simp
  | cons d dirs ih => simp [List.foldl_cons, ih, tldrVisit_found, Bool.or_assoc]

theorem visits_hint (fs : FS) (name : Str) (dirs : List Str) (st : Out) :
    (dirs.foldl (tldrVisit fs name) st).stderr.count Msg.hint = st.stderr.count Msg.hint := by
  induction dirs generalizing st with
  | nil => simp
  | cons d dirs ih => simp [List.foldl_cons, ih, tldrVisit_hint]

theorem tldrScan_stdout (fs : FS) (paths : Str) (names : List Str) (st : Out) :
    (tldrScan fs paths names st).stdout =
      st.stdout ++ names.flatMap (fun name =>
        (candidates paths name).flatMap (fun p => (fs p).emitted)) := by
  unfold tldrScan
  induction names generalizing st with
  | nil => simp
  | cons n names ih =>
    simp [List.foldl_cons, ih, visits_stdout, candidates, List.flatMap_map, List.append_assoc]

theorem tldrScan_found (fs : FS) (paths : Str) (names : List Str) (st : Out) :
    (tldrScan fs paths names st).found =
      (st.found || names.any (fun name =>
        (candidates paths name).any (fun p => (fs p).opened))) := by
  unfold tldrScan
  induction names generalizing st with
  | nil => simp
  | cons n names ih =>
    simp [List.foldl_cons, ih, visits_found, candidates, List.any_map, Bool.or_assoc,
      Function.comp_def]

theorem tldrScan_hint (fs : FS) (paths : Str) (names : List Str) (st : Out) :
    (tldrScan fs paths names st).stderr.count Msg.hint = st.stderr.count Msg.hint := by
  unfold tldrScan
  induction names generalizing st with
  | nil => simp
  | cons n names ih => simp [List.foldl_cons, ih, visits_hint]

/-- C1, as stated, fails: with search path `d`, the name `n` and a file `d/n`
holding `ab` whose read breaks after one character, `tldr` writes `a` to
standard output, which is not the concatenation of the full contents of the
files that can be opened and read (here the empty string). -/
theorem tldr_stdout_partial_read :
    (tldr faultyFS "d".toList ["n".toList]).stdout = "a".toList ∧
    (tldr faultyFS "d".toList ["n".toList]).stdout ≠
      ["n".toList].flatMap (fun name =>
        (candidates "d".toList name).flatMap (fun p => (faultyFS p).fullContent)) := by
  decide

/-- C1, amended: for every list of names and every filesystem state, the
bytes `tldr` writes to standard output are the concatenation, over the names
in order and for each name over the search-path directories in order, of what
`io.Copy` reads from `filepath.Join(directory, name)`: the full content when
the file opens and reads without error, the bytes read before the error when
the read fails, nothing when the path is missing or cannot be opened. -/
theorem tldr_stdout_eq (fs : FS) (paths : Str) (names : List Str) :
    (tldr fs paths names).stdout =
      names.flatMap (fun name =>
        (candidates paths name).flatMap (fun p => (fs p).emitted)) := by
  unfold tldr
  simp only
  split_ifs <;> simp [tldrScan_stdout]

/-- C2, as stated, fails: with search path `d`, the name `n` and `d/n` a
directory, no candidate is streamed to standard output successfully and yet
`tldr` does not write the hint. -/
theorem tldr_hint_missing_after_failed_copy :
    (["n".toList].any (fun name =>
        (candidates "d".toList name).any (fun p => (dirFS p).streamed))) = false ∧
    (tldr dirFS "d".toList ["n".toList]).stdout = [] ∧
    (tldr dirFS "d".toList ["n".toList]).stderr.count Msg.hint = 0 := by
  decide

/-- C2, amended: for every list of names (the empty list included) and every
filesystem state, `tldr` writes the hint line exactly once if no candidate
path passed both `os.Stat` and `os.Open`, and does not write it at all if at
least one candidate was opened, whether or not its content could then be
streamed without error. -/
theorem tldr_hint_count (fs : FS) (paths : Str) (names : List Str) :
    (tldr fs paths names).stderr.count Msg.hint =
      if names.any (fun name => (candidates paths name).any (fun p => (fs p).opened))
      then 0 else 1 := by
  unfold tldr
  simp only
  have hf := tldrScan_found fs paths names ⟨[], [], false⟩
  have hh := tldrScan_hint fs paths names ⟨[], [], false⟩
  simp only [Bool.false_or, List.count_nil] at hf hh
  by_cases h : (tldrScan fs paths names ⟨[], [], false⟩).found = true
  · rw [if_pos h, hh, ← hf, if_pos h]
  · rw [if_neg h, ← hf, if_neg h, List.count_append, hh]
    simp

/-! ## Configuration assembly -/

theorem homeEnv_values (name : Str) : '$' ∉ Getenv homeEnv name := by
  unfold Getenv homeEnv
  split_ifs <;> simp

/-- C10: for every template and every environment in which no variable's
value contains `$`, expanding twice equals expanding once, so the second
expansion in `main` (line 44) leaves the search path as line 38 computed
it. -/
theorem expand_twice_eq_once (env : Env) (henv : ∀ name, '$' ∉ Getenv env name)
    (s pullDirFlag pathsFlag : Str) :
    ExpandEnv env (ExpandEnv env s) = ExpandEnv env s ∧
    mainPaths env pullDirFlag pathsFlag = mainPathsOnce env pullDirFlag pathsFlag :=
  ⟨ExpandEnv_idem env henv s, ExpandEnv_idem env henv _⟩

theorem expand_twice_eq_once_witness :
    ExpandEnv homeEnv (ExpandEnv homeEnv "$HOME/x:$Y".toList) =
      ExpandEnv homeEnv "$HOME/x:$Y".toList ∧
    mainPaths homeEnv "$HOME/c".toList "~/a:(pull-dir)".toList =
      mainPathsOnce homeEnv "$HOME/c".toList "~/a:(pull-dir)".toList :=
  expand_twice_eq_once homeEnv homeEnv_values _ _ _

theorem default_paths_once (env : Env) :
    mainPathsOnce env defaultPullDir defaultPaths =
      (Getenv env "HOME".toList ++ "/.tldr".toList) ++
        ':' :: (Getenv env "HOME".toList ++ "/.local/share/tldr".toList) := by
  have h1 : Replace (Replace defaultPaths placeholder defaultPullDir) ['~'] "$HOME".toList =
      "$HOME/.tldr:$HOME/.local/share/tldr".toList := by decide
  rw [mainPathsOnce, h1]
  simp [ExpandEnv, expandGo, getShellName, isShellSpecialVar, isAlphaNum]

theorem default_pullDir (env : Env) :
    mainPullDir env defaultPullDir =
      Getenv env "HOME".toList ++ "/.local/share/tldr".toList := by
  simp [mainPullDir, defaultPullDir, ExpandEnv, expandGo, getShellName, isShellSpecialVar,
    isAlphaNum]

/-- C9: with the default flag values and a `HOME` value that contains neither
`:` nor `$`, the search path `tldr` splits has exactly the two entries
`<HOME>/.tldr` and `<HOME>/.local/share/tldr`, its last entry is the resolved
cache directory, and for every name the path `getFile` writes is one of the
candidate paths `tldr` tests. -/
theorem default_search_path (env : Env)
    (hcolon : ':' ∉ Getenv env "HOME".toList) (hdollar : '$' ∉ Getenv env "HOME".toList) :
    Split (mainPaths env defaultPullDir defaultPaths) [':'] =
      [Getenv env "HOME".toList ++ "/.tldr".toList,
       Getenv env "HOME".toList ++ "/.local/share/tldr".toList] ∧
    (Split (mainPaths env defaultPullDir defaultPaths) [':']).getLast? =
      some (mainPullDir env defaultPullDir) ∧
    ∀ name, Join (mainPullDir env defaultPullDir) name ∈
      candidates (mainPaths env defaultPullDir defaultPaths) name := by
  have hlit : '$' ∉ (Getenv env "HOME".toList ++ "/.tldr".toList) ++
      ':' :: (Getenv env "HOME".toList ++ "/.local/share/tldr".toList) := by
    simp only [List.mem_append, List.mem_cons, not_or]
    refine ⟨⟨hdollar, by decide⟩, by decide, hdollar, by decide⟩
  have hsplit : Split (mainPaths env defaultPullDir defaultPaths) [':'] =
      [Getenv env "HOME".toList ++ "/.tldr".toList,
       Getenv env "HOME".toList ++ "/.local/share/tldr".toList] := by
    rw [mainPaths, default_paths_once, ExpandEnv_literal env _ hlit, Split_append_sep,
      Split_literal]
    · simp only [List.mem_append, not_or]
      exact ⟨hcolon, by decide⟩
    · simp only [List.mem_append, not_or]
      exact ⟨hcolon, by decide⟩
  refine ⟨hsplit, ?_, ?_⟩
  · rw [hsplit, default_pullDir]
    rfl
  · intro name
    rw [candidates, hsplit, default_pullDir]
    simp

theorem default_search_path_witness :
    Split (mainPaths homeEnv defaultPullDir defaultPaths) [':'] =
      [Getenv homeEnv "HOME".toList ++ "/.tldr".toList,
       Getenv homeEnv "HOME".toList ++ "/.local/share/tldr".toList] ∧
    (Split (mainPaths homeEnv defaultPullDir defaultPaths) [':']).getLast? =
      some (mainPullDir homeEnv defaultPullDir) ∧
    ∀ name, Join (mainPullDir homeEnv defaultPullDir) name ∈
      candidates (mainPaths homeEnv defaultPullDir defaultPaths) name :=
  default_search_path homeEnv (by decide) (by decide)

/-! ## `filepath.Join` on plain names -/

theorem cleanStep_plain (rooted : Bool) (st : CleanSt) {n : Str} (h : plainName n) :
    (cleanStep rooted st n).out =
      (if (rooted && st.out.length != 1) || (!rooted && st.out.length != 0)
       then st.out ++ ['/'] else st.out) ++ n := by
  obtain ⟨h1, _, h3, h4⟩ := h
  simp [cleanStep, h1, h3, h4]

theorem Join_plain (d : Str) : ∃ pre : Str, ∀ n, plainName n → Join d n = pre ++ n := by
  by_cases hd : d = []
  · subst hd
    refine ⟨[], fun n hn => ?_⟩
    obtain ⟨h1, h2, h3, h4⟩ := hn
    have hroot : (n.head? = some '/') = False := by
      cases n with
      | nil => simp
      | cons c r =>
        simp only [List.mem_cons, not_or] at h2
        simpa using Ne.symm h2.1
    simp only [Join, ne_eq, not_true_eq_false, if_false, h1, not_false_eq_true, if_true,
      Clean, Split_literal '/' n h2, List.foldl_cons, List.foldl_nil, List.nil_append]
    rw [cleanStep_plain _ _ ⟨h1, h2, h3, h4⟩]
    simp [hroot, h1]
  · let rooted : Bool := decide (d.head? = some '/')
    let init : CleanSt := if rooted then ⟨['/'], 1⟩ else ⟨[], 0⟩
    let st := (Split d ['/']).foldl (cleanStep rooted) init
    refine ⟨(if (rooted && st.out.length != 1) || (!rooted && st.out.length != 0)
       then st.out ++ ['/'] else st.out), fun n hn => ?_⟩
    have hhead : (d ++ '/' :: n).head? = d.head? := by
      cases d with
      | nil => exact absurd rfl hd
      | cons c r => rfl
    have hne : d ++ '/' :: n ≠ [] := by simp
    simp only [Join, ne_eq, hd, not_false_eq_true, if_true, Clean, hne, if_false,
      Split_append_last '/' d n hn.2.1, List.foldl_append, List.foldl_cons, List.foldl_nil,
      hhead]
    rw [cleanStep_plain _ _ hn]
    have hn1 := hn.1
    simp only [rooted, st, init]
    split_ifs <;> simp_all

theorem Join_plain_inj (d : Str) {n1 n2 : Str} (h1 : plainName n1) (h2 : plainName n2)
    (h : Join d n1 = Join d n2) : n1 = n2 := by
  obtain ⟨pre, hpre⟩ := Join_plain d
  rw [hpre n1 h1, hpre n2 h2] at h
  exact List.append_cancel_left h

/-! ## Remote sync -/

theorem getFile_frame (sys : Sys) (pullDir : Str) (fs : FS) (name URL q : Str)
    (h : Join pullDir name ≠ q) (ha : sys.sameFile (Join pullDir name) q = false) :
    (getFile sys pullDir fs name URL).1 q = fs q := by
  unfold getFile
  split
  · rfl
  · simp only
    split_ifs
    · simp [FS.write, Ne.symm h, ha]
    · rfl

theorem pullAll_frame (sys : Sys) (pullDir : Str) (files : List Entry) (fs : FS) (q : Str)
    (h : ∀ f ∈ files, Join pullDir f.Name ≠ q)
    (ha : ∀ f ∈ files, sys.sameFile (Join pullDir f.Name) q = false) :
    (pullAll sys pullDir fs files).1 q = fs q := by
  induction files generalizing fs with
  | nil => rfl
  | cons f rest ih =>
    have hf := getFile_frame sys pullDir fs f.Name f.DownloadURL q (h f (by simp))
      (ha f (by simp))
    unfold pullAll
    split
    · next fs1 heq =>
      rw [ih fs1 (fun g hg => h g (by simp [hg])) (fun g hg => ha g (by simp [hg]))]
      rw [heq] at hf
      exact hf
    · next fs1 heq =>
      rw [heq] at hf
      exact hf

theorem getFile_ok (sys : Sys) (pullDir : Str) (fs : FS) (name URL body : Str)
    (hget : sys.get URL = .body body true)
    (hcreate : sys.create (Join pullDir name) = true)
    (hwrite : ∀ k, sys.writeLimit (Join pullDir name) = some k → body.length ≤ k) :
    getFile sys pullDir fs name URL = (fs.write sys.sameFile (Join pullDir name) body, true) := by
  unfold getFile
  rw [hget]
  simp only [hcreate, if_true, copyToFile]
  cases hl : sys.writeLimit (Join pullDir name) with
  | none => rfl
  | some k =>
    have := hwrite k hl
    simp [Nat.not_lt.mpr this]

theorem write_content (fs : FS) (sameFile : Str → Str → Bool) (p body : Str) :
    (fs.write sameFile p body p).content? = some body := by
  unfold FS.write
  simp only [true_or, if_true]
  cases fs p <;> rfl

theorem pullAll_ok (sys : Sys) (pullDir : Str) (files : List Entry) (fs : FS)
    (hnames : ∀ f ∈ files, plainName f.Name)
    (hdistinct : (files.map Entry.Name).Nodup)
    (hlinks : ∀ f ∈ files, ∀ g ∈ files, f.Name ≠ g.Name →
      sys.sameFile (Join pullDir f.Name) (Join pullDir g.Name) = false)
    (hget : ∀ f ∈ files, ∃ body, sys.get f.DownloadURL = .body body true)
    (hcreate : ∀ f ∈ files, sys.create (Join pullDir f.Name) = true)
    (hwrite : ∀ f ∈ files, ∀ body c, sys.get f.DownloadURL = .body body c →
      ∀ k, sys.writeLimit (Join pullDir f.Name) = some k → body.length ≤ k) :
    (pullAll sys pullDir fs files).2 = true ∧
    ∀ f ∈ files, ∃ body, sys.get f.DownloadURL = .body body true ∧
      ((pullAll sys pullDir fs files).1 (Join pullDir f.Name)).content? = some body := by
  induction files generalizing fs with
  | nil => simp [pullAll]
  | cons f rest ih =>
    obtain ⟨body, hbody⟩ := hget f (by simp)
    have hok := getFile_ok sys pullDir fs f.Name f.DownloadURL body hbody
      (hcreate f (by simp)) (fun k hk => hwrite f (by simp) body true hbody k hk)
    simp only [List.map_cons, List.nodup_cons, List.mem_map, not_exists, not_and] at hdistinct
    have ih1 := ih (fs.write sys.sameFile (Join pullDir f.Name) body)
      (fun g hg => hnames g (by simp [hg])) hdistinct.2
      (fun g hg h hh => hlinks g (by simp [hg]) h (by simp [hh]))
      (fun g hg => hget g (by simp [hg])) (fun g hg => hcreate g (by simp [hg]))
      (fun g hg => hwrite g (by simp [hg]))
    have hstep : pullAll sys pullDir fs (f :: rest) =
        pullAll sys pullDir (fs.write sys.sameFile (Join pullDir f.Name) body) rest := by
      rw [pullAll, hok]
    rw [hstep]
    refine ⟨ih1.1, ?_⟩
    intro g hg
    rcases List.mem_cons.mp hg with rfl | hg
    · refine ⟨body, hbody, ?_⟩
      rw [pullAll_frame, write_content]
      · intro h hh heq
        have hname : h.Name = g.Name :=
          Join_plain_inj pullDir (hnames h (by simp [hh])) (hnames g (by simp)) heq
        exact hdistinct.1 h hh hname
      · intro h hh
        exact hlinks h (by simp [hh]) g (by simp) (fun hname => hdistinct.1 h hh hname)
    · exact ih1.2 g hg

/-- C5, as stated, fails: with cache directory `/c`, the listing `a` (served
`AAA`) and `b` (served `B`), and `/c/a` a link to `/c/b`, every operation
succeeds and `doPull` returns, yet `/c/a` then reads `B`, not the bytes served
at its own download URL. -/
theorem doPull_linked_destinations :
    (doPull linkedSys "/c".toList emptyFS).2 = true ∧
    linkedSys.get "ua".toList = .body "AAA".toList true ∧
    ((doPull linkedSys "/c".toList emptyFS).1 (Join "/c".toList "a".toList)).content? =
      some "B".toList := by
  decide

/-- C5, amended: for every cache directory, every prior filesystem state and
every listing whose names are pairwise distinct plain file names and whose
destination paths name pairwise different files (no two of them are linked to
one file), if the directory creation, the listing fetch and every download and
write succeed, then `doPull` returns and every listed file
`filepath.Join(pullDir, name)` exists afterwards with exactly the bytes served
at its download URL, whatever it held before. -/
theorem doPull_happy_path (sys : Sys) (pullDir : Str) (fs : FS) (files : List Entry)
    (hmkdir : sys.mkdirAll pullDir = true)
    (hlisting : sys.listing = .entries files)
    (hnames : ∀ f ∈ files, plainName f.Name)
    (hdistinct : (files.map Entry.Name).Nodup)
    (hlinks : ∀ f ∈ files, ∀ g ∈ files, f.Name ≠ g.Name →
      sys.sameFile (Join pullDir f.Name) (Join pullDir g.Name) = false)
    (hget : ∀ f ∈ files, ∃ body, sys.get f.DownloadURL = .body body true)
    (hcreate : ∀ f ∈ files, sys.create (Join pullDir f.Name) = true)
    (hwrite : ∀ f ∈ files, ∀ body c, sys.get f.DownloadURL = .body body c →
      ∀ k, sys.writeLimit (Join pullDir f.Name) = some k → body.length ≤ k) :
    (doPull sys pullDir fs).2 = true ∧
    ∀ f ∈ files, ∃ body, sys.get f.DownloadURL = .body body true ∧
      ((doPull sys pullDir fs).1 (Join pullDir f.Name)).content? = some body := by
  have h : doPull sys pullDir fs = pullAll sys pullDir fs files := by
    simp [doPull, hmkdir, hlisting]
  rw [h]
  exact pullAll_ok sys pullDir files fs hnames hdistinct hlinks hget hcreate hwrite

theorem doPull_happy_path_witness :
    (doPull twoDocsSys "/c".toList oldFS).2 = true ∧
    ∀ f ∈ [(⟨"a".toList, "ua".toList⟩ : Entry), ⟨"b".toList, "ub".toList⟩],
      ∃ body, twoDocsSys.get f.DownloadURL = .body body true ∧
        ((doPull twoDocsSys "/c".toList oldFS).1 (Join "/c".toList f.Name)).content? =
          some body :=
  doPull_happy_path twoDocsSys "/c".toList oldFS
    [⟨"a".toList, "ua".toList⟩, ⟨"b".toList, "ub".toList⟩]
    rfl rfl (by simp [plainName]) (by decide) (by simp [twoDocsSys])
    (by simp [twoDocsSys]) (by simp [twoDocsSys]) (by simp [twoDocsSys])

/-- C6, evaluated on a listing entry named `../x` with cache directory `/c`:
`getFile` writes to `/x`, and `doPull` creates that file, which is not
located within `/c`. -/
theorem doPull_writes_outside_cache :
    Join "/c".toList "../x".toList = "/x".toList ∧
    ("/c/".toList).isPrefixOf "/x".toList = false ∧
    emptyFS "/x".toList = .absent ∧
    (doPull escapeSys "/c".toList emptyFS).1 "/x".toList =
      .present "data".toList .ok := by
  decide

/-- C7: for every prior filesystem state, if the listing response cannot be
decoded, `doPull` ends the process (exit status 1 in `main`) without any
download: every file is left as it was. -/
theorem doPull_undecodable_listing (env : Env) (sys : Sys) (fs : FS) (flags : Flags)
    (hpull : flags.pull = true) (hlisting : sys.listing = .undecodable) :
    doPull sys (mainPullDir env flags.pullDir) fs = (fs, false) ∧
    (main env sys fs flags).exit = 1 ∧
    (main env sys fs flags).fs = fs ∧
    (main env sys fs flags).stdout = [] := by
  have h : doPull sys (mainPullDir env flags.pullDir) fs = (fs, false) := by
    unfold doPull
    rw [hlisting]
    split_ifs <;> rfl
  simp [main, hpull, h]

theorem doPull_undecodable_listing_witness :
    doPull badListingSys (mainPullDir homeEnv defaultPullDir) oldFS = (oldFS, false) ∧
    (main homeEnv badListingSys oldFS ⟨true, defaultPullDir, defaultPaths, ["a".toList]⟩).exit
      = 1 ∧
    (main homeEnv badListingSys oldFS ⟨true, defaultPullDir, defaultPaths, ["a".toList]⟩).fs
      = oldFS ∧
    (main homeEnv badListingSys oldFS
      ⟨true, defaultPullDir, defaultPaths, ["a".toList]⟩).stdout = [] :=
  doPull_undecodable_listing homeEnv badListingSys oldFS
    ⟨true, defaultPullDir, defaultPaths, ["a".toList]⟩ rfl rfl

/-! ## Lemmas on `strings.Replace` -/

theorem replaceGo_skip (old new : Str) (k : Nat) (t : Str) :
    replaceGo old new k t = replaceGo old new 0 (t.drop k) := by
  induction k generalizing t with
  | zero => simp
  | succ k ih =>
    cases t with
    | nil => simp [replaceGo]
    | cons c t => simp [replaceGo, ih t]

theorem replaceGo_cons (old new : Str) (c : Char) (t : Str) :
    replaceGo old new 0 (c :: t) =
      if old.isPrefixOf (c :: t) then new ++ replaceGo old new (old.length - 1) t
      else c :: replaceGo old new 0 t := rfl

theorem replaceGo_of_not_infix (old new : Str) (s : Str) (h : ¬ old <:+: s) :
    replaceGo old new 0 s = s := by
  induction s with
  | nil => simp [replaceGo]
  | cons c t ih =>
    have hp : ¬ old.isPrefixOf (c :: t) = true := by
      rw [List.isPrefixOf_iff_prefix]
      exact fun hp => h hp.isInfix
    rw [replaceGo_cons, if_neg hp, ih (fun hi => h (List.infix_cons hi))]

theorem Replace_of_not_infix (old new : Str) (s : Str) (hold : old ≠ [])
    (h : ¬ old <:+: s) : Replace s old new = s := by
  simp [Replace, hold, replaceGo_of_not_infix old new s h]

theorem Replace_tilde_of_not_mem (new s : Str) (h : '~' ∉ s) : Replace s ['~'] new = s := by
  apply Replace_of_not_infix _ _ _ (by simp)
  intro hi
  exact h (hi.subset (by simp))

theorem placeholder_unbordered : unbordered placeholder := by
  unfold unbordered
  decide

theorem prefix_forces_nil {w s rest : Str} (hw : unbordered w) (hs : ¬ w <:+: s)
    (hp : w <+: s ++ (w ++ rest)) : s = [] := by
  by_contra hne
  have hpos : 0 < s.length := List.length_pos.mpr hne
  by_cases hlen : w.length ≤ s.length
  · exact hs (List.prefix_of_prefix_length_le hp (List.prefix_append s _) hlen).isInfix
  · have hlt : s.length < w.length := Nat.lt_of_not_le hlen
    obtain ⟨t, ht⟩ := hp
    have hd := congrArg (List.drop s.length) ht
    rw [List.drop_append_of_le_length (Nat.le_of_lt hlt), List.drop_left] at hd
    have h1 : w.drop s.length <+: w ++ rest := ⟨t, hd⟩
    have h2 : w.drop s.length <+: w :=
      List.prefix_of_prefix_length_le h1 (List.prefix_append w rest) (by simp)
    exact hw s.length hlt hpos (List.isPrefixOf_iff_prefix.mpr h2)

theorem replaceGo_hit (old new rest : Str) (hold : old ≠ []) :
    replaceGo old new 0 (old ++ rest) = new ++ replaceGo old new 0 rest := by
  cases old with
  | nil => exact absurd rfl hold
  | cons o os =>
    have hp : (o :: os).isPrefixOf (o :: (os ++ rest)) = true := by
      rw [List.isPrefixOf_iff_prefix]
      exact List.prefix_append (o :: os) rest
    rw [List.cons_append, replaceGo_cons, if_pos hp, replaceGo_skip]
    simp

theorem replaceGo_segment (old new s rest : Str) (hold : old ≠ []) (hw : unbordered old)
    (hs : ¬ old <:+: s) :
    replaceGo old new 0 (s ++ (old ++ rest)) = s ++ (new ++ replaceGo old new 0 rest) := by
  induction s with
  | nil => simpa using replaceGo_hit old new rest hold
  | cons c t ih =>
    have hp : ¬ (old.isPrefixOf (c :: (t ++ (old ++ rest))) = true) := by
      rw [List.isPrefixOf_iff_prefix]
      intro hp
      have := prefix_forces_nil (s := c :: t) hw hs (by simpa using hp)
      simp at this
    rw [List.cons_append, replaceGo_cons, if_neg hp, ih (fun hi => hs (List.infix_cons hi))]
    rfl

theorem Replace_stringsJoin (old new : Str) (segs : List Str) (hold : old ≠ [])
    (hw : unbordered old) (hsegs : ∀ s ∈ segs, ¬ old <:+: s) :
    Replace (stringsJoin old segs) old new = stringsJoin new segs := by
  have key : replaceGo old new 0 (stringsJoin old segs) = stringsJoin new segs := by
    induction segs with
    | nil => simp [stringsJoin, replaceGo]
    | cons s rest ih =>
      cases rest with
      | nil => simpa [stringsJoin] using replaceGo_of_not_infix old new s (hsegs s (by simp))
      | cons s2 rest =>
        simp only [stringsJoin, List.append_assoc]
        rw [replaceGo_segment old new s _ hold hw (hsegs s (by simp))]
        rw [ih (fun x hx => hsegs x (by simp [hx]))]
  simp [Replace, hold, key]

theorem mem_stringsJoin {c : Char} {sep : Str} {segs : List Str}
    (h : c ∈ stringsJoin sep segs) : c ∈ sep ∨ ∃ s ∈ segs, c ∈ s := by
  induction segs with
  | nil => simp [stringsJoin] at h
  | cons s rest ih =>
    cases rest with
    | nil => exact Or.inr ⟨s, by simp, by simpa [stringsJoin] using h⟩
    | cons s2 rest =>
      simp only [stringsJoin, List.mem_append] at h
      rcases h with (h | h) | h
      · exact Or.inr ⟨s, by simp, h⟩
      · exact Or.inl h
      · rcases ih h with h | ⟨x, hx, hc⟩
        · exact Or.inl h
        · exact Or.inr ⟨x, by simp [hx], hc⟩

/-! ## Templates whose references are complete -/

theorem closedGo_skip (next : Option Char) (k : Nat) (t : Str) :
    closedGo next k t = closedGo next 0 (t.drop k) := by
  induction k generalizing t with
  | zero => simp
  | succ k ih =>
    cases t with
    | nil => simp [closedGo]
    | cons c t => simp [closedGo, ih t]

theorem closed_cons_of_ne (next : Option Char) {c : Char} (t : Str) (h : c ≠ '$') :
    closed (c :: t) next = closed t next := by
  simp [closed, closedGo, h]

theorem closed_dollar (next : Option Char) {t : Str} (h : t ≠ []) :
    closed ('$' :: t) next =
      (refComplete t next && closed (t.drop (getShellName t).2) next) := by
  simp only [closed, closedGo, if_true, h, if_false]
  rw [closedGo_skip]

theorem takeWhile_append_of_stop {p : Char → Bool} (t u : Str) (h : t.all p = false) :
    (t ++ u).takeWhile p = t.takeWhile p := by
  induction t with
  | nil => simp at h
  | cons c t ih =>
    by_cases hc : p c = true
    · have ht : t.all p = false := by simpa [hc] using h
      simp [List.takeWhile_cons, hc, ih ht]
    · simp [List.takeWhile_cons, hc]

theorem getShellName_append (t u : Str) (ht : t ≠ [])
    (h : refComplete t u.head? = true) : getShellName (t ++ u) = getShellName t := by
  cases t with
  | nil => exact absurd rfl ht
  | cons d r =>
    unfold refComplete at h
    simp only [List.headD_cons, List.drop_succ_cons, List.drop_zero] at h
    by_cases hb : d = '\x7b'
    · simp only [hb, if_true, List.contains_iff_exists_mem_beq, beq_iff_eq] at h
      obtain ⟨x, hx, rfl⟩ := h
      have hall : r.all (fun x => decide (x ≠ '\x7d')) = false := by
        simp only [List.all_eq_false]
        exact ⟨_, hx, by simp⟩
      have htw := takeWhile_append_of_stop (p := fun x => decide (x ≠ '\x7d')) r u hall
      have hlt : (r.takeWhile (fun x => decide (x ≠ '\x7d'))).length < r.length := by
        by_contra hge
        have hle := (List.takeWhile_sublist (fun x => decide (x ≠ '\x7d')) (l := r)).length_le
        have heq : r.takeWhile (fun x => decide (x ≠ '\x7d')) = r :=
          (List.takeWhile_sublist _).eq_of_length_le (by omega)
        rw [List.takeWhile_eq_self_iff] at heq
        have := heq _ hx
        simp at this
      rw [List.cons_append]
      unfold getShellName
      simp only [hb, if_true, htw]
      have hne1 : (r.takeWhile (fun x => decide (x ≠ '\x7d'))).length ≠ (r ++ u).length := by
        simp only [List.length_append]; omega
      have hne2 : (r.takeWhile (fun x => decide (x ≠ '\x7d'))).length ≠ r.length := by omega
      simp only [hne1, hne2, if_false]
      cases r with
      | nil => simp at hx
      | cons c1 r1 =>
        cases r1 with
        | nil =>
          have hc1 : c1 = '\x7d' := (List.mem_singleton.mp hx).symm
          subst hc1
          have hs : isShellSpecialVar '\x7d' = false := by decide
          simp [hs]
        | cons c2 r2 => simp
    · by_cases hs : isShellSpecialVar d = true
      · rw [List.cons_append]
        unfold getShellName
        simp [hb, hs]
      · simp only [hb, if_false, hs, Bool.false_eq_true, Bool.or_eq_true,
          Bool.not_eq_true'] at h
        have htw : ((d :: r) ++ u).takeWhile isAlphaNum = (d :: r).takeWhile isAlphaNum := by
          rcases h with h | h
          · exact takeWhile_append_of_stop _ u h
          · by_cases hall : (d :: r).all isAlphaNum = false
            · exact takeWhile_append_of_stop _ u hall
            · have hall2 : ∀ a ∈ d :: r, isAlphaNum a = true := by
                simpa using hall
              rw [List.takeWhile_append_of_pos hall2]
              have h1 : (d :: r).takeWhile isAlphaNum = d :: r :=
                List.takeWhile_eq_self_iff.mpr hall2
              rw [h1]
              cases u with
              | nil => simp
              | cons e u2 =>
                have he : isAlphaNum e = false := by simpa using h
                simp [List.takeWhile_cons, he]
        rw [List.cons_append] at htw ⊢
        unfold getShellName
        simp only [hb, if_false, hs, Bool.false_eq_true, htw]

theorem getShellName_snd_le (t : Str) (ht : t ≠ []) : (getShellName t).2 ≤ t.length := by
  cases t with
  | nil => exact absurd rfl ht
  | cons c r =>
    unfold getShellName
    simp only
    have hle1 := (List.takeWhile_sublist (fun x => decide (x ≠ '\x7d')) (l := r)).length_le
    have hle2 := (List.takeWhile_sublist isAlphaNum (l := c :: r)).length_le
    split_ifs with h1 h2 h3 h4 h5
    · simp only [Bool.and_eq_true, decide_eq_true_eq] at h2
      cases r with
      | nil => simp at h2
      | cons c1 r1 =>
        cases r1 with
        | nil => simp at h2
        | cons c2 r2 => simp
    · simp
    · cases r with
      | nil => simp at h3
      | cons c1 r1 => simp
    · simp only [List.length_cons]
      omega
    · simp
    · simpa using hle2

theorem ExpandEnv_append_of_closed (env : Env) (u : Str) :
    ∀ (n : Nat) (P : Str), P.length ≤ n → closed P u.head? = true →
      ExpandEnv env (P ++ u) = ExpandEnv env P ++ ExpandEnv env u := by
  intro n
  induction n with
  | zero =>
    intro P hP _
    have : P = [] := List.length_eq_zero.mp (Nat.le_zero.mp hP)
    subst this
    simp [ExpandEnv_nil]
  | succ n ih =>
    intro P hP hcl
    cases P with
    | nil => simp [ExpandEnv_nil]
    | cons c t =>
      have ht : t.length ≤ n := by simpa using hP
      by_cases hc : c = '$'
      · subst hc
        by_cases hte : t = []
        · subst hte
          simp only [closed, closedGo, if_true] at hcl
          cases u with
          | nil => simp [ExpandEnv_nil]
          | cons d u2 =>
            simp only [List.head?_cons, Bool.not_eq_true', Bool.or_eq_false_iff,
              decide_eq_false_iff_not] at hcl
            obtain ⟨⟨hb, hs⟩, ha⟩ := hcl
            have hg : getShellName (d :: u2) = ([], 0) := by
              unfold getShellName
              simp [hb, hs, List.takeWhile_cons, ha]
            rw [List.singleton_append, ExpandEnv_dollar env (by simp), refOutput, hg,
              ExpandEnv_dollar_end]
            simp
        · rw [closed_dollar _ hte, Bool.and_eq_true] at hcl
          have hg := getShellName_append t u hte hcl.1
          have hw := getShellName_snd_le t hte
          have hdrop : (t.drop (getShellName t).2).length ≤ n := by
            rw [List.length_drop]; omega
          rw [List.cons_append, ExpandEnv_dollar env (by simp [hte]),
            ExpandEnv_dollar env hte, refOutput, refOutput, hg,
            List.drop_append_of_le_length hw, ih _ hdrop hcl.2, List.append_assoc]
      · rw [closed_cons_of_ne _ t hc] at hcl
        rw [List.cons_append, ExpandEnv_cons_of_ne env _ hc, ExpandEnv_cons_of_ne env _ hc,
          ih t ht hcl, List.cons_append]

theorem ExpandEnv_append_closed (env : Env) (P u : Str) (h : closed P u.head? = true) :
    ExpandEnv env (P ++ u) = ExpandEnv env P ++ ExpandEnv env u :=
  ExpandEnv_append_of_closed env u P.length P le_rfl h

/-! ## Substitution of the cache directory into the search path -/

theorem ExpandEnv_after_placeholder (env : Env) (P : Str) (l : List Str) (hl : l ≠ [])
    (hlit : ∀ s ∈ l, '$' ∉ s)
    (hcl : ∀ j, j < l.length → closed P (stringsJoin P (l.drop j)).head? = true) :
    ExpandEnv env (P ++ stringsJoin P l) =
      ExpandEnv env P ++ stringsJoin (ExpandEnv env P) l := by
  induction l with
  | nil => exact absurd rfl hl
  | cons s rest ih =>
    have h0 := hcl 0 (by simp)
    rw [List.drop_zero] at h0
    rw [ExpandEnv_append_closed env P _ h0]
    cases rest with
    | nil => simp [stringsJoin, ExpandEnv_literal env s (hlit s (by simp))]
    | cons s2 rest =>
      have ih2 := ih (by simp) (fun x hx => hlit x (by simp [hx]))
        (fun j hj => by
          have := hcl (j + 1) (by simpa using hj)
          simpa using this)
      simp only [stringsJoin, List.append_assoc]
      rw [ExpandEnv_literal_append env s _ (hlit s (by simp)), ih2]

theorem ExpandEnv_stringsJoin (env : Env) (P : Str) (segs : List Str)
    (hlit : ∀ s ∈ segs, '$' ∉ s)
    (hfollow : ∀ i, i < segs.length → 0 < i →
      closed P (stringsJoin P (segs.drop i)).head? = true) :
    ExpandEnv env (stringsJoin P segs) = stringsJoin (ExpandEnv env P) segs := by
  cases segs with
  | nil => simp [stringsJoin, ExpandEnv_nil]
  | cons s rest =>
    cases rest with
    | nil => simpa [stringsJoin] using ExpandEnv_literal env s (hlit s (by simp))
    | cons s2 rest =>
      simp only [stringsJoin, List.append_assoc]
      rw [ExpandEnv_literal_append env s _ (hlit s (by simp)),
        ExpandEnv_after_placeholder env P (s2 :: rest) (by simp)
          (fun x hx => hlit x (by simp [hx]))
          (fun j hj => by
            have := hfollow (j + 1) (by simpa using hj) (by omega)
            simpa using this)]

/-- C3, as stated, fails: with `HOME=/h`, pull-dir `$HOME` and the paths
template `(pull-dir)_old` (two literal segments, the empty one and `_old`,
around one placeholder), the search path handed to `tldr` is empty, not the
segments joined by the resolved cache directory (`/h_old`). -/
theorem search_path_not_joined :
    mainPullDir homeEnv "$HOME".toList = "/h".toList ∧
    mainPaths homeEnv "$HOME".toList (stringsJoin placeholder [[], "_old".toList]) = [] ∧
    mainPaths homeEnv "$HOME".toList (stringsJoin placeholder [[], "_old".toList]) ≠
      stringsJoin (mainPullDir homeEnv "$HOME".toList) [[], "_old".toList] := by
  decide

/-- C3, amended: for every environment whose values contain no `$`, every
pull-dir template without `~`, and every paths template made of literal
segments (no `$`, no `~`, no placeholder inside a segment) separated by k >= 0
placeholders, such that no inserted copy of the pull-dir template ends in a
reference that the character following the copy would continue, the search
path `main` hands to `tldr` equals the segments joined by the resolved cache
directory. -/
theorem search_path_joined (env : Env) (P : Str) (segs : List Str)
    (henv : ∀ name, '$' ∉ Getenv env name)
    (hP : '~' ∉ P)
    (hsegs : ∀ s ∈ segs, '$' ∉ s ∧ '~' ∉ s ∧ ¬ placeholder <:+: s)
    (hfollow : ∀ i, i < segs.length → 0 < i →
      closed P (stringsJoin P (segs.drop i)).head? = true) :
    mainPaths env P (stringsJoin placeholder segs) =
      stringsJoin (mainPullDir env P) segs := by
  have h1 : Replace (stringsJoin placeholder segs) placeholder P = stringsJoin P segs :=
    Replace_stringsJoin placeholder P segs (by decide) placeholder_unbordered
      (fun s hs => (hsegs s hs).2.2)
  have h2 : '~' ∉ stringsJoin P segs := by
    intro h
    rcases mem_stringsJoin h with h | ⟨s, hs, hc⟩
    · exact hP h
    · exact (hsegs s hs).2.1 hc
  rw [mainPaths, mainPathsOnce, h1, Replace_tilde_of_not_mem _ _ h2, ExpandEnv_idem env henv,
    ExpandEnv_stringsJoin env P segs (fun s hs => (hsegs s hs).1) hfollow, mainPullDir]

theorem search_path_joined_witness :
    mainPaths homeEnv "$HOME".toList
        (stringsJoin placeholder ["/a:".toList, "/b:".toList, []]) =
      stringsJoin (mainPullDir homeEnv "$HOME".toList) ["/a:".toList, "/b:".toList, []] :=
  search_path_joined homeEnv "$HOME".toList ["/a:".toList, "/b:".toList, []]
    homeEnv_values (by decide) (by decide) (by decide)

/-- C8, evaluated with `HOME=/h`, pull-dir `~/c` and paths `(pull-dir)`: the
cache directory `doPull` writes to keeps the literal `~` while the search path
has it replaced by the value of `HOME`, so the path `getFile` writes for a
name is not among the candidates `tldr` tests. -/
theorem tilde_kept_in_cache_dir :
    mainPullDir homeEnv "~/c".toList = "~/c".toList ∧
    mainPaths homeEnv "~/c".toList placeholder = "/h/c".toList ∧
    Join (mainPullDir homeEnv "~/c".toList) "n".toList ∉
      candidates (mainPaths homeEnv "~/c".toList placeholder) "n".toList := by
  decide

/-! ## References to undefined variables -/

theorem isAlphaNum_ne_brace {c : Char} (h : isAlphaNum c = true) : c ≠ '\x7b' := by
  rintro rfl
  exact absurd h (by decide)

theorem getShellName_identifier (name rest : Str) (hne : name ≠ [])
    (halnum : ∀ c ∈ name, isAlphaNum c = true)
    (hfirst : isShellSpecialVar (name.headD ' ') = false)
    (hrest : ∀ c, rest.head? = some c → isAlphaNum c = false) :
    getShellName (name ++ rest) = (name, name.length) := by
  have htw : (name ++ rest).takeWhile isAlphaNum = name := by
    rw [List.takeWhile_append_of_pos halnum]
    cases rest with
    | nil => simp
    | cons d r => simp [List.takeWhile_cons, hrest d rfl]
  cases name with
  | nil => exact absurd rfl hne
  | cons c r =>
    have hb : c ≠ '\x7b' := isAlphaNum_ne_brace (halnum c (by simp))
    have hs : isShellSpecialVar c = false := by simpa using hfirst
    rw [List.cons_append] at htw ⊢
    unfold getShellName
    simp only [hb, if_false, hs, Bool.false_eq_true, htw]

theorem getShellName_braced (name rest : Str) (hne : name ≠ []) (hbrace : '\x7d' ∉ name) :
    getShellName ('\x7b' :: (name ++ '\x7d' :: rest)) = (name, name.length + 2) := by
  have htw : (name ++ '\x7d' :: rest).takeWhile (fun x => decide (x ≠ '\x7d')) = name := by
    rw [List.takeWhile_append_of_pos]
    · simp [List.takeWhile_cons]
    · intro a ha
      have hne2 : a ≠ '\x7d' := fun h => hbrace (h ▸ ha)
      simpa using hne2
  unfold getShellName
  simp only [if_true, htw]
  cases name with
  | nil => exact absurd rfl hne
  | cons c r =>
    cases r with
    | nil =>
      by_cases hs : isShellSpecialVar c = true
      · simp [hs]
      · simp [hs]
    | cons c2 r2 =>
      have hc2 : c2 ≠ '\x7d' := by
        intro h
        exact hbrace (by simp [h])
      simp [hc2]

theorem ExpandEnv_undefined_identifier (env : Env) (name rest : Str) (hne : name ≠ [])
    (halnum : ∀ c ∈ name, isAlphaNum c = true)
    (hfirst : isShellSpecialVar (name.headD ' ') = false)
    (hrest : ∀ c, rest.head? = some c → isAlphaNum c = false)
    (hundef : env name = none) :
    ExpandEnv env ('$' :: (name ++ rest)) = ExpandEnv env rest := by
  have hd : name ++ rest ≠ [] := by simp [hne]
  rw [ExpandEnv_dollar env hd, refOutput,
    getShellName_identifier name rest hne halnum hfirst hrest]
  simp [hne, Getenv, hundef]

theorem ExpandEnv_undefined_braced (env : Env) (name rest : Str) (hne : name ≠ [])
    (hbrace : '\x7d' ∉ name) (hundef : env name = none) :
    ExpandEnv env ('$' :: '\x7b' :: (name ++ '\x7d' :: rest)) = ExpandEnv env rest := by
  rw [ExpandEnv_dollar env (by simp), refOutput, getShellName_braced name rest hne hbrace]
  simp [hne, Getenv, hundef]

/-- C4, as stated, fails: with no variable defined, the cache directory
template `$X/c` and the search path template `$X/c` both resolve to `/c`: the
reference is replaced by the empty string, not left as literal text. -/
theorem undefined_reference_not_literal :
    emptyEnv "X".toList = none ∧
    mainPullDir emptyEnv "$X/c".toList = "/c".toList ∧
    mainPaths emptyEnv "$X/c".toList "$X/c".toList = "/c".toList ∧
    mainPullDir emptyEnv "$\x7bX\x7d/c".toList = "/c".toList := by
  decide

/-- C4, amended: for every environment and every template `lit ++ ref ++ rest`
in which `lit` is free of `$` and `ref` is a reference `$NAME` (NAME a
non-empty run of letters, digits and underscores that does not start with a
digit and is not continued by `rest`) or `$\x7bNAME\x7d` to a variable that is
not defined, the expansion performed by `main` replaces the reference by the
empty string: the cache directory resolves to `lit` followed by the expansion
of `rest`, and so does the search path (expanded twice) when the template
contains neither the placeholder nor `~`. -/
theorem undefined_reference_erased (env : Env) (lit name rest ref P : Str)
    (hlit : '$' ∉ lit) (hundef : env name = none) (hne : name ≠ [])
    (href : (ref = '$' :: name ∧ (∀ c ∈ name, isAlphaNum c = true) ∧
              isShellSpecialVar (name.headD ' ') = false ∧
              ∀ c, rest.head? = some c → isAlphaNum c = false) ∨
            (ref = '$' :: '\x7b' :: (name ++ ['\x7d']) ∧ '\x7d' ∉ name)) :
    mainPullDir env (lit ++ (ref ++ rest)) = lit ++ ExpandEnv env rest ∧
    (¬ placeholder <:+: lit ++ (ref ++ rest) → '~' ∉ lit ++ (ref ++ rest) →
      mainPaths env P (lit ++ (ref ++ rest)) =
        lit ++ ExpandEnv env (ExpandEnv env rest)) := by
  have hE : ExpandEnv env (lit ++ (ref ++ rest)) = lit ++ ExpandEnv env rest := by
    rw [ExpandEnv_literal_append env lit _ hlit]
    rcases href with ⟨rfl, halnum, hfirst, hrest⟩ | ⟨rfl, hbrace⟩
    · rw [List.cons_append,
        ExpandEnv_undefined_identifier env name rest hne halnum hfirst hrest hundef]
    · have : '$' :: '\x7b' :: (name ++ ['\x7d']) ++ rest =
          '$' :: '\x7b' :: (name ++ '\x7d' :: rest) := by simp
      rw [this, ExpandEnv_undefined_braced env name rest hne hbrace hundef]
  refine ⟨hE, fun hph htilde => ?_⟩
  rw [mainPaths, mainPathsOnce, Replace_of_not_infix _ _ _ (by decide) hph,
    Replace_tilde_of_not_mem _ _ htilde, hE, ExpandEnv_literal_append env lit _ hlit]

theorem undefined_reference_erased_witness :
    mainPullDir homeEnv ("/a/".toList ++ ("$X".toList ++ "/$HOME".toList)) =
      "/a/".toList ++ ExpandEnv homeEnv "/$HOME".toList ∧
    (¬ placeholder <:+: "/a/".toList ++ ("$X".toList ++ "/$HOME".toList) →
      '~' ∉ "/a/".toList ++ ("$X".toList ++ "/$HOME".toList) →
      mainPaths homeEnv "/p".toList ("/a/".toList ++ ("$X".toList ++ "/$HOME".toList)) =
        "/a/".toList ++ ExpandEnv homeEnv (ExpandEnv homeEnv "/$HOME".toList)) :=
  undefined_reference_erased homeEnv "/a/".toList "X".toList "/$HOME".toList "$X".toList
    "/p".toList (by decide) (by decide) (by decide)
    (Or.inl ⟨by decide, by decide, by decide, by decide⟩)

end Tldr
